import Mathlib

/-!
# Verification of pymatgen analysis modules against their specification

This development shallowly embeds the algorithmic content of several
pymatgen modules (`pymatgen/entries/entry_tools.py`,
`pymatgen/analysis/defects/old_thermodynamics.py`,
`pymatgen/phonon/ir_spectra.py`, `pymatgen/analysis/fragmenter.py`, and
the Pourbaix decomposition-energy query) and settles a list of claims
about them.

Framework objects that the repository depends on but does not implement
(structures, compositions, `DefectEntry`, `StructureMatcher`, the monty
MSON machinery) are abstracted: entries and hosts are elements of
arbitrary types with decidable equality, and the externally supplied
operations (`StructureMatcher.fit`, `get_structure_hash`, formation
energies, graph isomorphism) are function parameters.  Machine floats
are embedded as exact rationals.
-/

namespace Spec2Proof

/-! ## `pymatgen/entries/entry_tools.py`

`_perform_grouping` works on a list `unmatched` of `(entry, host)` pairs.
While the list is non-empty it takes the head as reference, collects
`matches`, the head together with every later pair whose host the
`StructureMatcher` fits against the reference host, emits the entries of
`matches` as a group, and filters out of `unmatched` every pair that is a
member of `matches`.  The JSON encode/decode steps
(`json.dumps`/`json.loads` with `MontyEncoder`/`MontyDecoder`) are a
round-trip on the entry objects and are embedded as the identity.
-/

variable {E H : Type}

/-- One iteration's `matches` list: the reference pair followed by every
later pair whose host fits the reference host
(`matches = [unmatched[0]]` + the `m.fit(ref_host, test_host)` loop). -/
def matchesOf (fit : H → H → Bool) (p : E × H) (rest : List (E × H)) :
    List (E × H) :=
  p :: rest.filter (fun q => fit p.2 q.2)

/-- The `while` loop of `_perform_grouping`, returning the produced groups
(as lists of `(entry, host)` pairs; the source appends only the entries
`[m[0] for m in matches]`, the projection is taken in
`group_entries_by_structure` below).  The filter step
`unmatched = list(filter(lambda x: x not in matches, unmatched))`
is embedded verbatim. -/
def performGrouping [DecidableEq E] [DecidableEq H] (fit : H → H → Bool) :
    List (E × H) → List (List (E × H))
  | [] => []
  | p :: rest =>
    let ms := matchesOf fit p rest
    ms :: performGrouping fit ((p :: rest).filter (fun q => q ∉ ms))
termination_by l => l.length
decreasing_by
  simp only [matchesOf, List.filter_cons, List.mem_cons, true_or,
    not_true_eq_false, decide_False]
  exact Nat.lt_succ_of_le (List.length_filter_le _ _)

/-- Serial `group_entries_by_structure` (the `ncpus=None` branch):
pair each entry with its host (`_get_host` composed with the structure
accessor is the abstract `host` function), run `_perform_grouping`, and
return the groups of entries. -/
def group_entries_by_structure [DecidableEq E] [DecidableEq H]
    (fit : H → H → Bool) (host : E → H) (entries : List E) :
    List (List E) :=
  (performGrouping fit (entries.map (fun e => (e, host e)))).map
    (fun g => g.map Prod.fst)

/-- Parallel `group_entries_by_structure` (the `ncpus` branch): split the
`(entry, host)` pairs into buckets keyed by
`comparator.get_structure_hash(host)`, run `_perform_grouping` on every
bucket, and concatenate the groups.  The `multiprocessing` pool runs the
buckets independently and appends to a shared manager list, so the order
of the groups in the result is scheduling-dependent; the claims compare
the results only up to reordering of the groups. -/
def group_entries_by_structure_parallel [DecidableEq E] [DecidableEq H]
    (fit : H → H → Bool) (hash : H → ℕ) (host : E → H) (entries : List E) :
    List (List E) :=
  let pairs := entries.map (fun e => (e, host e))
  let hashes := (pairs.map (fun p => hash p.2)).dedup
  (hashes.flatMap (fun hv =>
      performGrouping fit (pairs.filter (fun p => hash p.2 = hv)))).map
    (fun g => g.map Prod.fst)

/-! ### Basic lemmas about `performGrouping` -/

theorem performGrouping_nil [DecidableEq E] [DecidableEq H]
    (fit : H → H → Bool) : performGrouping fit ([] : List (E × H)) = [] := by
  rw [performGrouping]

theorem performGrouping_cons [DecidableEq E] [DecidableEq H]
    (fit : H → H → Bool) (p : E × H) (rest : List (E × H)) :
    performGrouping fit (p :: rest) =
      matchesOf fit p rest ::
        performGrouping fit
          ((p :: rest).filter (fun q => q ∉ matchesOf fit p rest)) := by
  rw [performGrouping]

theorem self_mem_matchesOf [DecidableEq E] [DecidableEq H]
    (fit : H → H → Bool) (p : E × H) (rest : List (E × H)) :
    p ∈ matchesOf fit p rest := by
  simp [matchesOf]

/-- The unmatched list after one iteration: the head is always removed
(it is a member of `matches`), so only the tail is filtered. -/
theorem filter_not_mem_matchesOf [DecidableEq E] [DecidableEq H]
    (fit : H → H → Bool) (p : E × H) (rest : List (E × H)) :
    (p :: rest).filter (fun q => q ∉ matchesOf fit p rest) =
      rest.filter (fun q => q ∉ matchesOf fit p rest) := by
  have hp : p ∈ matchesOf fit p rest := self_mem_matchesOf fit p rest
  simp [List.filter_cons, hp]

theorem length_filter_not_mem_lt [DecidableEq E] [DecidableEq H]
    (fit : H → H → Bool) (p : E × H) (rest : List (E × H)) :
    ((p :: rest).filter (fun q => q ∉ matchesOf fit p rest)).length <
      (p :: rest).length := by
  rw [filter_not_mem_matchesOf]
  exact Nat.lt_succ_of_le (List.length_filter_le _ _)

theorem performGrouping_length_le_aux [DecidableEq E] [DecidableEq H]
    (fit : H → H → Bool) :
    ∀ (n : ℕ) (l : List (E × H)), l.length ≤ n →
      (performGrouping fit l).length ≤ l.length := by
  intro n
  induction n with
  | zero =>
    intro l hl
    have : l = [] := List.eq_nil_of_length_eq_zero (Nat.le_zero.mp hl)
    subst this
    simp [performGrouping_nil]
  | succ n ih =>
    intro l hl
    cases l with
    | nil => simp [performGrouping_nil]
    | cons p rest =>
      rw [performGrouping_cons, filter_not_mem_matchesOf]
      have h1 : (rest.filter (fun q => q ∉ matchesOf fit p rest)).length ≤
          rest.length := List.length_filter_le _ _
      have h2 := ih (rest.filter (fun q => q ∉ matchesOf fit p rest))
        (le_trans h1 (Nat.le_of_succ_le_succ hl))
      simp only [List.length_cons]
      omega

/-- C8: each loop iteration makes strict progress, and the number of
iterations (= number of produced groups) is at most the input length. -/
theorem performGrouping_length_le [DecidableEq E] [DecidableEq H]
    (fit : H → H → Bool) (l : List (E × H)) :
    (performGrouping fit l).length ≤ l.length :=
  performGrouping_length_le_aux fit l.length l le_rfl

/-! ### Multiset preservation (claim C5)

With a reflexive `fit` (a structure always fits itself, as
`StructureMatcher.fit` does), each iteration removes exactly the matched
pairs, counted with multiplicity. -/

theorem count_cons_filter_of_mem {α : Type} [DecidableEq α]
    (f : α → Bool) (p : α) (rest : List α) (hfp : f p = true) (x : α)
    (hx : x ∈ p :: rest.filter f) :
    (p :: rest.filter f).count x = (p :: rest).count x := by
  by_cases hxp : x = p
  · subst hxp
    simp only [List.count_cons_self]
    have : (rest.filter f).count x = rest.count x :=
      List.count_filter (by simp [hfp])
    omega
  · have hxr : x ∈ rest.filter f := by
      rcases List.mem_cons.mp hx with h | h
      · exact absurd h hxp
      · exact h
    have hfx : f x = true := List.of_mem_filter hxr
    rw [List.count_cons_of_ne hxp, List.count_cons_of_ne hxp]
    exact List.count_filter (by simp [hfx])

theorem perm_cons_append_filter {α : Type} [DecidableEq α]
    (f : α → Bool) (p : α) (rest : List α) (hfp : f p = true) :
    List.Perm (p :: rest)
      ((p :: rest.filter f) ++
        (p :: rest).filter (fun q => q ∉ p :: rest.filter f)) := by
  rw [List.perm_iff_count]
  intro x
  rw [List.count_append]
  by_cases hx : x ∈ p :: rest.filter f
  · have h1 : ((p :: rest).filter
        (fun q => q ∉ p :: rest.filter f)).count x = 0 := by
      refine List.count_eq_zero.mpr (fun hm => ?_)
      have := List.of_mem_filter hm
      simp only [decide_eq_true_eq] at this
      exact this hx
    rw [h1, count_cons_filter_of_mem f p rest hfp x hx]
    omega
  · have h1 : (p :: rest.filter f).count x = 0 :=
      List.count_eq_zero.mpr hx
    have h2 : ((p :: rest).filter
        (fun q => q ∉ p :: rest.filter f)).count x =
          (p :: rest).count x :=
      List.count_filter (decide_eq_true hx)
    omega

theorem perm_matches_append_filtered [DecidableEq E] [DecidableEq H]
    (fit : H → H → Bool) (hrefl : ∀ s : H, fit s s = true)
    (p : E × H) (rest : List (E × H)) :
    List.Perm (p :: rest)
      (matchesOf fit p rest ++
        (p :: rest).filter (fun q => q ∉ matchesOf fit p rest)) := by
  have h := perm_cons_append_filter (fun q : E × H => fit p.2 q.2) p rest
    (hrefl p.2)
  simpa [matchesOf] using h

theorem performGrouping_flatten_perm_aux [DecidableEq E] [DecidableEq H]
    (fit : H → H → Bool) (hrefl : ∀ s : H, fit s s = true) :
    ∀ (n : ℕ) (l : List (E × H)), l.length ≤ n →
      List.Perm (performGrouping fit l).flatten l := by
  intro n
  induction n with
  | zero =>
    intro l hl
    have : l = [] := List.eq_nil_of_length_eq_zero (Nat.le_zero.mp hl)
    subst this
    simp [performGrouping_nil]
  | succ n ih =>
    intro l hl
    cases l with
    | nil => simp [performGrouping_nil]
    | cons p rest =>
      rw [performGrouping_cons, List.flatten_cons]
      have hlen : ((p :: rest).filter
          (fun q => q ∉ matchesOf fit p rest)).length ≤ n := by
        have := length_filter_not_mem_lt fit p rest
        simp only [List.length_cons] at this hl
        omega
      have hperm := ih _ hlen
      have := (hperm.append_left (matchesOf fit p rest)).trans
        (perm_matches_append_filtered fit hrefl p rest).symm
      exact this

/-- Every pair of the original list stays paired as `(e, host e)`:
membership in the flattened groups implies membership in the input. -/
theorem mem_of_mem_performGrouping [DecidableEq E] [DecidableEq H]
    (fit : H → H → Bool) (hrefl : ∀ s : H, fit s s = true)
    (l : List (E × H)) (g : List (E × H)) (q : E × H)
    (hg : g ∈ performGrouping fit l) (hq : q ∈ g) : q ∈ l := by
  have hperm := performGrouping_flatten_perm_aux fit hrefl l.length l le_rfl
  exact hperm.mem_iff.mp (List.mem_flatten.mpr ⟨g, hg, hq⟩)

/-- Every group is a `matches` list of some iteration: it is non-empty
and every member fits the head's host. -/
theorem performGrouping_groups_fit_aux [DecidableEq E] [DecidableEq H]
    (fit : H → H → Bool) (hrefl : ∀ s : H, fit s s = true) :
    ∀ (n : ℕ) (l : List (E × H)), l.length ≤ n →
      ∀ g ∈ performGrouping fit l, ∃ p₀ rest, g = p₀ :: rest ∧
        ∀ q ∈ g, fit p₀.2 q.2 = true := by
  intro n
  induction n with
  | zero =>
    intro l hl
    have : l = [] := List.eq_nil_of_length_eq_zero (Nat.le_zero.mp hl)
    subst this
    simp [performGrouping_nil]
  | succ n ih =>
    intro l hl
    cases l with
    | nil => simp [performGrouping_nil]
    | cons p rest =>
      rw [performGrouping_cons]
      intro g hg
      rcases List.mem_cons.mp hg with hg | hg
      · refine ⟨p, rest.filter (fun q => fit p.2 q.2), hg, ?_⟩
        intro q hq
        rw [hg] at hq
        rcases List.mem_cons.mp hq with hq | hq
        · rw [hq]; exact hrefl p.2
        · simpa using List.of_mem_filter hq
      · have hlen : ((p :: rest).filter
            (fun q => q ∉ matchesOf fit p rest)).length ≤ n := by
          have := length_filter_not_mem_lt fit p rest
          simp only [List.length_cons] at this hl
          omega
        exact ih _ hlen g hg

/-- C8: `_perform_grouping` terminates on every input: the reference pair
`unmatched[0]` is always a member of `matches`, hence the filter step
strictly shrinks the unmatched list, and the while-loop ends (with
`unmatched` empty) after at most `len(entries)` iterations — one group is
emitted per iteration, so the group count bounds the iteration count. -/
theorem C8_perform_grouping_terminates [DecidableEq E] [DecidableEq H]
    (fit : H → H → Bool) (p : E × H) (rest : List (E × H))
    (l : List (E × H)) :
    p ∈ matchesOf fit p rest ∧
      ((p :: rest).filter (fun q => q ∉ matchesOf fit p rest)).length <
        (p :: rest).length ∧
      (performGrouping fit l).length ≤ l.length :=
  ⟨self_mem_matchesOf fit p rest, length_filter_not_mem_lt fit p rest,
    performGrouping_length_le fit l⟩

theorem pair_snd_eq_host [DecidableEq E] [DecidableEq H]
    (host : E → H) (entries : List E) (q : E × H)
    (hq : q ∈ entries.map (fun e => (e, host e))) : q.2 = host q.1 := by
  rcases List.mem_map.mp hq with ⟨e, _, rfl⟩
  rfl

/-- C5: `group_entries_by_structure` partitions its input.  The flattened
groups are a permutation of the input entries (no entry dropped or
duplicated, with multiplicity), every group is non-empty, and every
entry of a group fits the host of the group's first (reference) entry.
The hypothesis `hrefl` records that `StructureMatcher.fit` is reflexive
(every structure fits itself). -/
theorem C5_group_entries_partition [DecidableEq E] [DecidableEq H]
    (fit : H → H → Bool) (host : E → H) (entries : List E)
    (hrefl : ∀ s : H, fit s s = true) :
    List.Perm (group_entries_by_structure fit host entries).flatten
        entries ∧
      (∀ g ∈ group_entries_by_structure fit host entries, g ≠ []) ∧
      (∀ g ∈ group_entries_by_structure fit host entries, ∀ e ∈ g,
        ∃ e₀, g.head? = some e₀ ∧ fit (host e₀) (host e) = true) := by
  set l := entries.map (fun e => (e, host e)) with hl
  have hflat : (group_entries_by_structure fit host entries).flatten =
      ((performGrouping fit l).flatten).map Prod.fst := by
    simp [group_entries_by_structure, hl]
  have hperm := performGrouping_flatten_perm_aux fit hrefl l.length l le_rfl
  refine ⟨?_, ?_, ?_⟩
  · rw [hflat]
    have h1 := hperm.map Prod.fst
    have h2 : l.map Prod.fst = entries := by
      rw [hl, List.map_map]
      exact List.map_id entries
    rw [h2] at h1
    exact h1
  · intro g hg
    rcases List.mem_map.mp hg with ⟨gp, hgp, rfl⟩
    rcases performGrouping_groups_fit_aux fit hrefl l.length l le_rfl gp hgp
      with ⟨p₀, rest', hcons, _⟩
    rw [hcons]
    simp
  · intro g hg e he
    rcases List.mem_map.mp hg with ⟨gp, hgp, rfl⟩
    rcases performGrouping_groups_fit_aux fit hrefl l.length l le_rfl gp hgp
      with ⟨p₀, rest', hcons, hfit⟩
    rcases List.mem_map.mp he with ⟨q, hq, rfl⟩
    refine ⟨p₀.1, ?_, ?_⟩
    · rw [hcons]; rfl
    · have hq2 : q.2 = host q.1 := pair_snd_eq_host host entries q
        (mem_of_mem_performGrouping fit hrefl l gp q hgp hq)
      have hp2 : p₀.2 = host p₀.1 := pair_snd_eq_host host entries p₀
        (mem_of_mem_performGrouping fit hrefl l gp p₀ hgp
          (by rw [hcons]; exact List.mem_cons_self _ _))
      have := hfit q hq
      rw [hq2, hp2] at this
      exact this

/-! ### Hash splitting (claim C2)

The `ncpus` branch splits the pairs into buckets by
`comparator.get_structure_hash` before grouping.  Under the hypothesis
that fitting structures have equal hashes, grouping each bucket yields
exactly the serial groups, up to reordering. -/

theorem flatMap_congr_mem {α β : Type} (hs : List α) (f g : α → List β)
    (h : ∀ x ∈ hs, f x = g x) : hs.flatMap f = hs.flatMap g := by
  induction hs with
  | nil => rfl
  | cons x xs ih =>
    simp only [List.flatMap_cons, h x (List.mem_cons_self x xs)]
    rw [ih (fun y hy => h y (List.mem_cons_of_mem x hy))]

theorem flatMap_const_nil {α β : Type} (hs : List α) :
    hs.flatMap (fun _ => ([] : List β)) = [] := by
  induction hs <;> simp_all

theorem filter_comm_aux {α : Type} (l : List α) (f g : α → Bool) :
    (l.filter f).filter g = (l.filter g).filter f := by
  rw [List.filter_filter, List.filter_filter]
  exact List.filter_congr (fun a _ => Bool.and_comm (g a) (f a))

/-- Restricting the candidate list to the reference's hash bucket does not
change the `matches` list, because every fitting pair already has the
reference's hash. -/
theorem matchesOf_filter_hash [DecidableEq E] [DecidableEq H]
    (fit : H → H → Bool) (hash : H → ℕ)
    (hhash : ∀ a b : H, fit a b = true → hash a = hash b)
    (p : E × H) (rest : List (E × H)) :
    matchesOf fit p (rest.filter (fun q => hash q.2 = hash p.2)) =
      matchesOf fit p rest := by
  unfold matchesOf
  congr 1
  rw [List.filter_filter]
  refine List.filter_congr ?_
  intro a _
  by_cases hf : fit p.2 a.2 = true
  · simp [hf, (hhash _ _ hf).symm]
  · rw [Bool.not_eq_true] at hf
    simp [hf]

theorem mem_matchesOf_hash [DecidableEq E] [DecidableEq H]
    (fit : H → H → Bool) (hash : H → ℕ)
    (hhash : ∀ a b : H, fit a b = true → hash a = hash b)
    (p : E × H) (rest : List (E × H)) (q : E × H)
    (hq : q ∈ matchesOf fit p rest) : hash q.2 = hash p.2 := by
  rcases List.mem_cons.mp hq with rfl | hq
  · rfl
  · exact (hhash _ _ (by simpa using List.of_mem_filter hq)).symm

/-- Pairs from a foreign hash bucket are untouched by the removal of
`matches`. -/
theorem filter_hash_ne [DecidableEq E] [DecidableEq H]
    (fit : H → H → Bool) (hash : H → ℕ)
    (hhash : ∀ a b : H, fit a b = true → hash a = hash b)
    (p : E × H) (rest : List (E × H)) (hv : ℕ) (hne : hv ≠ hash p.2) :
    (rest.filter (fun q => q ∉ matchesOf fit p rest)).filter
        (fun q => hash q.2 = hv) =
      rest.filter (fun q => hash q.2 = hv) := by
  rw [List.filter_filter]
  refine List.filter_congr ?_
  intro a _
  by_cases hh : hash a.2 = hv
  · have hnm : a ∉ matchesOf fit p rest := fun hmem =>
      hne (hh ▸ mem_matchesOf_hash fit hash hhash p rest a hmem)
    simp [hh, hnm]
  · simp [hh]

theorem performGrouping_hash_split_aux [DecidableEq E] [DecidableEq H]
    (fit : H → H → Bool) (hash : H → ℕ)
    (hhash : ∀ a b : H, fit a b = true → hash a = hash b) :
    ∀ (n : ℕ) (l : List (E × H)), l.length ≤ n → ∀ hs : List ℕ,
      hs.Nodup → (∀ p ∈ l, hash p.2 ∈ hs) →
      List.Perm
        (hs.flatMap (fun hv => performGrouping fit
          (l.filter (fun p => hash p.2 = hv))))
        (performGrouping fit l) := by
  intro n
  induction n with
  | zero =>
    intro l hl hs _ _
    have : l = [] := List.eq_nil_of_length_eq_zero (Nat.le_zero.mp hl)
    subst this
    simp only [List.filter_nil, performGrouping_nil]
    rw [flatMap_const_nil]
  | succ n ih =>
    intro l hl hs hnd hmem
    cases l with
    | nil =>
      simp only [List.filter_nil, performGrouping_nil]
      rw [flatMap_const_nil]
    | cons p rest =>
      set ms := matchesOf fit p rest with hms
      set l' := rest.filter (fun q => q ∉ ms) with hl'
      have hpgl : performGrouping fit (p :: rest) =
          ms :: performGrouping fit l' := by
        rw [performGrouping_cons, filter_not_mem_matchesOf]
      have hh0 : hash p.2 ∈ hs := hmem p (List.mem_cons_self _ _)
      -- the head's bucket produces `ms` and then continues on the
      -- bucket's share of the filtered list
      have hbucket0 : performGrouping fit
          ((p :: rest).filter (fun q => hash q.2 = hash p.2)) =
          ms :: performGrouping fit
            (l'.filter (fun q => hash q.2 = hash p.2)) := by
        have h1 : (p :: rest).filter (fun q => hash q.2 = hash p.2) =
            p :: rest.filter (fun q => hash q.2 = hash p.2) := by
          simp [List.filter_cons]
        have hp : p ∈ ms := self_mem_matchesOf fit p rest
        rw [h1, performGrouping_cons,
          matchesOf_filter_hash fit hash hhash p rest, ← hms]
        congr 1
        have h2 : (p :: rest.filter (fun q => hash q.2 = hash p.2)).filter
            (fun q => q ∉ ms) =
            (rest.filter (fun q => hash q.2 = hash p.2)).filter
              (fun q => q ∉ ms) := by
          simp [List.filter_cons, hp]
        rw [h2, filter_comm_aux, ← hl']
      -- foreign buckets are unaffected by the first iteration
      have hbucketne : ∀ hv ∈ hs.erase (hash p.2),
          (p :: rest).filter (fun q => hash q.2 = hv) =
            l'.filter (fun q => hash q.2 = hv) := by
        intro hv hv_mem
        have hne : hv ≠ hash p.2 := (hnd.mem_erase_iff.mp hv_mem).1
        have h1 : (p :: rest).filter (fun q => hash q.2 = hv) =
            rest.filter (fun q => hash q.2 = hv) := by
          simp [List.filter_cons, hne.symm]
        rw [h1, hl', filter_hash_ne fit hash hhash p rest hv hne]
      -- length bound for the induction hypothesis
      have hlen : l'.length ≤ n := by
        have h1 : l'.length ≤ rest.length := by
          rw [hl']; exact List.length_filter_le _ _
        simp only [List.length_cons] at hl
        omega
      have hmem' : ∀ q ∈ l', hash q.2 ∈ hs := by
        intro q hq
        exact hmem q (List.mem_cons_of_mem p (List.mem_of_mem_filter hq))
      have hih := ih l' hlen hs hnd hmem'
      -- reorder the buckets so the head's bucket comes first
      have hperm_hs : List.Perm hs (hash p.2 :: hs.erase (hash p.2)) :=
        List.perm_cons_erase hh0
      have hstep1 : List.Perm
          (hs.flatMap (fun hv => performGrouping fit
            ((p :: rest).filter (fun q => hash q.2 = hv))))
          ((hash p.2 :: hs.erase (hash p.2)).flatMap
            (fun hv => performGrouping fit
              ((p :: rest).filter (fun q => hash q.2 = hv)))) :=
        hperm_hs.flatMap_right _
      rw [List.flatMap_cons, hbucket0] at hstep1
      rw [flatMap_congr_mem (hs.erase (hash p.2)) _
        (fun hv => performGrouping fit
          (l'.filter (fun q => hash q.2 = hv)))
        (fun hv hv_mem => by rw [hbucketne hv hv_mem])] at hstep1
      -- reassemble: ms :: (bucketed recursion) ~ ms :: recursion
      have hstep2 : List.Perm
          ((ms :: performGrouping fit
              (l'.filter (fun q => hash q.2 = hash p.2))) ++
            (hs.erase (hash p.2)).flatMap (fun hv => performGrouping fit
              (l'.filter (fun q => hash q.2 = hv))))
          (ms :: hs.flatMap (fun hv => performGrouping fit
            (l'.filter (fun q => hash q.2 = hv)))) := by
        simp only [List.cons_append]
        refine List.Perm.cons ms ?_
        have := (hperm_hs.flatMap_right (fun hv => performGrouping fit
          (l'.filter (fun q => hash q.2 = hv)))).symm
        rw [List.flatMap_cons] at this
        exact this
      refine ((hstep1.trans hstep2).trans ?_)
      rw [hpgl]
      exact hih.cons ms

/-- C2: `group_entries_by_structure` with `ncpus` set returns the same
groups as the serial call with `ncpus=None`, up to reordering of the
groups (the process pool appends groups to the shared manager list in a
scheduling-dependent order), under the hypothesis that any two
structures the `StructureMatcher` fits have equal structure hashes. -/
theorem C2_group_entries_parallel_eq_serial [DecidableEq E] [DecidableEq H]
    (fit : H → H → Bool) (hash : H → ℕ) (host : E → H) (entries : List E)
    (hhash : ∀ a b : H, fit a b = true → hash a = hash b) :
    List.Perm (group_entries_by_structure_parallel fit hash host entries)
      (group_entries_by_structure fit host entries) := by
  unfold group_entries_by_structure_parallel group_entries_by_structure
  refine List.Perm.map _ ?_
  refine performGrouping_hash_split_aux fit hash hhash
    (entries.map (fun e => (e, host e))).length _ le_rfl _
    (List.nodup_dedup _) ?_
  intro q hq
  exact List.mem_dedup.mpr (List.mem_map.mpr ⟨q, hq, rfl⟩)

/-- Witness for C5 at a concrete input: entries `[1, 2, 3]`, hosts given
by parity, fit given by equality of hosts. -/
theorem C5_group_entries_partition_witness :
    (∀ s : ℕ, (s == s) = true) ∧
      (List.Perm (group_entries_by_structure (fun a b : ℕ => a == b)
            (fun e : ℕ => e % 2) [1, 2, 3]).flatten [1, 2, 3] ∧
        (∀ g ∈ group_entries_by_structure (fun a b : ℕ => a == b)
            (fun e : ℕ => e % 2) [1, 2, 3], g ≠ []) ∧
        (∀ g ∈ group_entries_by_structure (fun a b : ℕ => a == b)
            (fun e : ℕ => e % 2) [1, 2, 3], ∀ e ∈ g,
          ∃ e₀, g.head? = some e₀ ∧ (e₀ % 2 == e % 2) = true)) :=
  ⟨fun s => by simp,
    C5_group_entries_partition (fun a b : ℕ => a == b) (fun e : ℕ => e % 2)
      [1, 2, 3] (fun s => by simp)⟩

/-- Witness for C2 at a concrete input: entries `[5, 2, 8]`, host = +1,
hash = host mod 3, fit = equality (which implies equal hashes). -/
theorem C2_group_entries_parallel_eq_serial_witness :
    (∀ a b : ℕ, (a == b) = true → a % 3 = b % 3) ∧
      List.Perm (group_entries_by_structure_parallel (fun a b : ℕ => a == b)
          (fun h : ℕ => h % 3) (fun e : ℕ => e + 1) [5, 2, 8])
        (group_entries_by_structure (fun a b : ℕ => a == b)
          (fun e : ℕ => e + 1) [5, 2, 8]) :=
  ⟨fun a b h => by simp only [beq_iff_eq] at h; rw [h],
    C2_group_entries_parallel_eq_serial (fun a b : ℕ => a == b)
      (fun h : ℕ => h % 3) (fun e : ℕ => e + 1) [5, 2, 8]
      (fun a b h => by simp only [beq_iff_eq] at h; rw [h])⟩

/-! ## `pymatgen/analysis/defects/old_thermodynamics.py`

`DefectPhaseDiagram.__init__` stores the entries, `vbm` and `band_gap`
and calls `_set_dpd_nochempots`, which sweeps a 10000-point grid over
`(-0.1, band_gap + 0.1)` and fills the `stable_charges`,
`finished_charges` and `transition_levels` dictionaries. -/

/-- Modelled from the spec: `DefectEntry` is a framework class that is
not under `src/` (only its callers are).  `_set_dpd_nochempots` calls
`formation_energy` with all-zero chemical potentials, so only the
zero-chempot formation energy matters; per the spec's description of the
sweep ("formation energy versus Fermi level" lines), it is a line in the
Fermi level whose slope is the charge and whose value at the VBM is the
`intercept`. -/
structure DefectEntry where
  name : String
  charge : ℤ
  intercept : ℚ
deriving DecidableEq

/-- Modelled from the spec: the zero-chemical-potential formation energy
line of a defect entry. -/
def DefectEntry.formation_energy (d : DefectEntry) (ef : ℚ) : ℚ :=
  d.intercept + d.charge * ef

/-- `DefectPhaseDiagram._get_all_defect_types`: distinct entry names in
first-occurrence order. -/
def getAllDefectTypes (ds : List DefectEntry) : List String :=
  ds.foldl (fun acc d => if d.name ∈ acc then acc else acc ++ [d.name]) []

/-- Grid spacing `(xlim[1]-xlim[0])/nb_steps` with
`xlim = (-0.1, band_gap+0.1)` and `nb_steps = 10000`. -/
def gridStep (gap : ℚ) : ℚ := (gap + 1/5) / 10000

/-- The `k`-th grid point of `np.arange(xlim[0], xlim[1], step)`. -/
def gridX (gap : ℚ) (k : ℕ) : ℚ := -(1/10) + k * gridStep gap

/-- The full sweep grid: `np.arange` over an exactly divisible range
yields the 10000 points `xlim[0] + k*step`, `k = 0..9999`. -/
def gridList (gap : ℚ) : List ℚ := (List.range 10000).map (gridX gap)

/-- State of the inner `for dfct in self.dentries` scan: the running
minimum `miny` (initialised to `10000`) and `cur_min_q`.  `cur_min_q` is
NOT reset between grid points in the source, so the scan starts from the
previous point's value. -/
structure ScanSt where
  miny : ℚ
  cur : Option ℤ
deriving DecidableEq

/-- One step of the inner scan: only entries named `t` participate, and
`miny`/`cur_min_q` are updated on strict improvement. -/
def innerScanStep (t : String) (x : ℚ) (s : ScanSt) (d : DefectEntry) :
    ScanSt :=
  if d.name = t then
    if d.formation_energy x < s.miny then
      ⟨d.formation_energy x, some d.charge⟩
    else s
  else s

/-- The inner scan over all entries at a fixed Fermi level `x`, starting
from `miny = 10000` and the carried-over `cur_min_q`. -/
def innerScan (ds : List DefectEntry) (t : String) (x : ℚ)
    (c0 : Option ℤ) : ScanSt :=
  ds.foldl (innerScanStep t x) ⟨10000, c0⟩

/-- State of the outer `for x_step in x` sweep: `trans_level`,
`chg_type`, `prev_min_q` and the carried `cur_min_q`. -/
structure SweepSt where
  trans : List (ℚ × Option ℤ × Option ℤ)
  chg : List (Option ℤ)
  prev : Option ℤ
  cur : Option ℤ
deriving DecidableEq

/-- One grid point of the sweep.  When `prev_min_q is not None`, a
transition is recorded if the minimiser changed, and the minimiser is
appended to `chg_type` if not yet present; finally
`prev_min_q = cur_min_q`. -/
def sweepStep (ds : List DefectEntry) (t : String) (s : SweepSt)
    (x : ℚ) : SweepSt :=
  let cur := (innerScan ds t x s.cur).cur
  match s.prev with
  | none => ⟨s.trans, s.chg, cur, cur⟩
  | some _ =>
    ⟨if cur ≠ s.prev then s.trans ++ [(x, s.prev, cur)] else s.trans,
     if cur ∉ s.chg then s.chg ++ [cur] else s.chg,
     cur, cur⟩

/-- The whole sweep for one defect type `t`. -/
def sweepType (ds : List DefectEntry) (t : String) (gap : ℚ) : SweepSt :=
  (gridList gap).foldl (sweepStep ds t) ⟨[], [], none, none⟩

/-- Python dict assignment `d[k] = v`: replace in place, keep insertion
order, append when the key is new. -/
def dictInsert {α : Type} (k : String) (v : α) :
    List (String × α) → List (String × α)
  | [] => [(k, v)]
  | (k', v') :: rest =>
    if k' = k then (k, v) :: rest else (k', v') :: dictInsert k v rest

/-- Python dict lookup `d.get(k)`. -/
def dictLookup {α : Type} (k : String) :
    List (String × α) → Option α
  | [] => none
  | (k', v) :: rest => if k' = k then some v else dictLookup k rest

structure DefectPhaseDiagram where
  dentries : List DefectEntry
  vbm : ℚ
  band_gap : ℚ
  stable_charges : List (String × List (Option ℤ))
  finished_charges : List (String × List ℤ)
  transition_levels : List (String × List (ℚ × Option ℤ × Option ℤ))
deriving DecidableEq

/-- `_set_dpd_nochempots` (also the effect of `__init__`).  Note the
source keys all three dictionaries by `dfct.name`, where `dfct` is the
leftover variable of the completed inner `for dfct in self.dentries`
loop, i.e. the name of the LAST entry of `dentries` — not the type `t`
whose sweep results are being stored.  (When a type exists, `dentries`
is non-empty, so the `getLast?` fallback value is never used.) -/
def set_dpd_nochempots (ds : List DefectEntry) (vbm gap : ℚ) :
    DefectPhaseDiagram :=
  (getAllDefectTypes ds).foldl (fun dpd t =>
    let st := sweepType ds t gap
    let key := (match ds.getLast? with | some d => d.name | none => "")
    { dpd with
      stable_charges := dictInsert key st.chg dpd.stable_charges
      finished_charges := dictInsert key
        ((ds.filter (fun e => e.name = t)).map (fun e => e.charge))
        dpd.finished_charges
      transition_levels :=
        dictInsert key st.trans dpd.transition_levels })
    ⟨ds, vbm, gap, [], [], []⟩

/-- The attribute names defined on the `DefectPhaseDiagram` class;
Python attribute lookup on `self` searches these. -/
def dpdMethodNames : List String :=
  ["__init__", "_set_dpd_nochempots", "add_defect_entry",
   "all_defect_types", "all_defect_entries", "all_stable_entries",
   "all_unstable_entries", "list_formation_energies",
   "list_defect_concentrations", "_get_all_defect_types",
   "suggest_charges"]

/-- `add_defect_entry`: appends the entry to `self.dentries`, then calls
`self._set_pd_nochempots()`.  Attribute lookup is embedded explicitly:
when the attribute is missing, Python raises `AttributeError` after the
append, leaving the derived dictionaries stale; the second component
carries the raised error, if any. -/
def add_defect_entry (dpd : DefectPhaseDiagram) (d : DefectEntry) :
    DefectPhaseDiagram × Option String :=
  let dpd1 := { dpd with dentries := dpd.dentries ++ [d] }
  if "_set_pd_nochempots" ∈ dpdMethodNames then
    (set_dpd_nochempots dpd1.dentries dpd1.vbm dpd1.band_gap, none)
  else
    (dpd1,
     some "AttributeError: DefectPhaseDiagram object has no attribute _set_pd_nochempots")

/-- C4 (code bug): `add_defect_entry` never succeeds.  It calls the
non-existent method `_set_pd_nochempots` (a typo for
`_set_dpd_nochempots`), so after appending the given entry it raises
`AttributeError` and the chemical-potential-independent attributes are
left stale instead of being recomputed. -/
theorem C4_add_defect_entry_raises (dpd : DefectPhaseDiagram)
    (d : DefectEntry) :
    (add_defect_entry dpd d).2 =
        some "AttributeError: DefectPhaseDiagram object has no attribute _set_pd_nochempots" ∧
      (add_defect_entry dpd d).1.dentries = dpd.dentries ++ [d] ∧
      (add_defect_entry dpd d).1.stable_charges = dpd.stable_charges := by
  unfold add_defect_entry
  rw [if_neg (by decide)]
  exact ⟨rfl, rfl, rfl⟩

/-! ### Evaluating the sweep

The 10000-point fold is evaluated by splitting off the first one or two
grid points and showing the remaining state is a fixed point. -/

theorem foldl_fixed_of_mem {α β : Type} (f : β → α → β) (b : β) :
    ∀ l : List α, (∀ a ∈ l, f b a = b) → l.foldl f b = b := by
  intro l
  induction l with
  | nil => intro _; rfl
  | cons x xs ih =>
    intro h
    rw [List.foldl_cons, h x (List.mem_cons_self x xs)]
    exact ih (fun a ha => h a (List.mem_cons_of_mem x ha))

theorem range_split_two : List.range 10000 = 0 :: 1 :: List.range' 2 9998 := by
  rw [List.range_eq_range' 10000]
  rw [show (10000:ℕ) = 9999 + 1 by norm_num, List.range'_succ]
  rw [show (9999:ℕ) = 9998 + 1 by norm_num, List.range'_succ]

theorem range_split_one : List.range 10000 = 0 :: List.range' 1 9999 := by
  rw [List.range_eq_range' 10000]
  rw [show (10000:ℕ) = 9999 + 1 by norm_num, List.range'_succ]

theorem gridList_decomp_two (gap : ℚ) :
    gridList gap = gridX gap 0 :: gridX gap 1 ::
      (List.range' 2 9998).map (gridX gap) := by
  unfold gridList
  rw [range_split_two]
  rfl

theorem gridList_decomp_one (gap : ℚ) :
    gridList gap = gridX gap 0 :: (List.range' 1 9999).map (gridX gap) := by
  unfold gridList
  rw [range_split_one]
  rfl

/-- When the scan returns the same minimiser at every grid point, the
sweep records no transitions and exactly one stable charge. -/
theorem sweepType_const (ds : List DefectEntry) (t : String) (gap : ℚ)
    (q : ℤ)
    (hscan : ∀ (x : ℚ) (c0 : Option ℤ), (innerScan ds t x c0).cur = some q) :
    sweepType ds t gap = ⟨[], [some q], some q, some q⟩ := by
  unfold sweepType
  rw [gridList_decomp_two]
  have h0 : sweepStep ds t ⟨[], [], none, none⟩ (gridX gap 0) =
      ⟨[], [], some q, some q⟩ := by
    simp [sweepStep, hscan]
  have h1 : sweepStep ds t ⟨[], [], some q, some q⟩ (gridX gap 1) =
      ⟨[], [some q], some q, some q⟩ := by
    simp [sweepStep, hscan]
  rw [List.foldl_cons, h0, List.foldl_cons, h1]
  refine foldl_fixed_of_mem _ _ _ ?_
  intro x _
  simp [sweepStep, hscan]

/-- The two defect entries used to exhibit the C3 key bug: two distinct
defect names. -/
def C3entries : List DefectEntry := [⟨"vac_1", 0, 0⟩, ⟨"sub_1", 0, 0⟩]

theorem C3_scan_vac : ∀ (x : ℚ) (c0 : Option ℤ),
    (innerScan C3entries "vac_1" x c0).cur = some 0 := by
  intro x c0
  simp [innerScan, C3entries, innerScanStep, DefectEntry.formation_energy]

theorem C3_scan_sub : ∀ (x : ℚ) (c0 : Option ℤ),
    (innerScan C3entries "sub_1" x c0).cur = some 0 := by
  intro x c0
  simp [innerScan, C3entries, innerScanStep, DefectEntry.formation_energy]

/-- C3 (code bug): on entries with two distinct defect names, the
dictionaries built by `_set_dpd_nochempots` contain a single key — the
name of the LAST entry of `dentries` (`self.stable_charges[dfct.name]`
uses the leftover inner-loop variable `dfct` instead of the type `t`) —
so the first defect's name is absent, contradicting the claim that each
dictionary holds one key per distinct defect name (and contradicting the
source's own comments "keys are defect names" and its `suggest_charges`,
which looks up every type's name). -/
theorem C3_single_key_bug :
    getAllDefectTypes C3entries = ["vac_1", "sub_1"] ∧
      (set_dpd_nochempots C3entries 0 1).stable_charges.map Prod.fst =
        ["sub_1"] ∧
      dictLookup "vac_1"
        (set_dpd_nochempots C3entries 0 1).stable_charges = none ∧
      (set_dpd_nochempots C3entries 0 1).finished_charges.map Prod.fst =
        ["sub_1"] ∧
      (set_dpd_nochempots C3entries 0 1).transition_levels.map Prod.fst =
        ["sub_1"] := by
  have htypes : getAllDefectTypes C3entries = ["vac_1", "sub_1"] := by
    decide
  have hvac := sweepType_const C3entries "vac_1" 1 0 C3_scan_vac
  have hsub := sweepType_const C3entries "sub_1" 1 0 C3_scan_sub
  have heval : set_dpd_nochempots C3entries 0 1 =
      ⟨C3entries, 0, 1, [("sub_1", [some 0])],
        [("sub_1", [0])], [("sub_1", [])]⟩ := by
    unfold set_dpd_nochempots
    rw [htypes]
    simp only [List.foldl_cons, List.foldl_nil, hvac, hsub]
    decide
  rw [heval, htypes]
  refine ⟨rfl, rfl, ?_, rfl, rfl⟩
  decide

/-- When the scan returns minimiser `q0` at the first grid point and
`q1 ≠ q0` at every later grid point, the sweep records one transition at
the second grid point and reports `[q1]` alone: the first grid point's
minimiser is never entered into `chg_type`, because recording only
happens once `prev_min_q` is set. -/
theorem sweepType_two_phase (ds : List DefectEntry) (t : String) (gap : ℚ)
    (q0 q1 : ℤ) (hne : q1 ≠ q0)
    (h0 : ∀ c0, (innerScan ds t (gridX gap 0) c0).cur = some q0)
    (h1 : ∀ k : ℕ, 1 ≤ k → k < 10000 →
      ∀ c0, (innerScan ds t (gridX gap k) c0).cur = some q1) :
    sweepType ds t gap =
      ⟨[(gridX gap 1, some q0, some q1)], [some q1], some q1, some q1⟩ := by
  unfold sweepType
  rw [gridList_decomp_two]
  have hs0 : sweepStep ds t ⟨[], [], none, none⟩ (gridX gap 0) =
      ⟨[], [], some q0, some q0⟩ := by
    simp [sweepStep, h0]
  have hs1 : sweepStep ds t ⟨[], [], some q0, some q0⟩ (gridX gap 1) =
      ⟨[(gridX gap 1, some q0, some q1)], [some q1], some q1, some q1⟩ := by
    simp [sweepStep, h1 1 (by norm_num) (by norm_num), hne]
  rw [List.foldl_cons, hs0, List.foldl_cons, hs1]
  refine foldl_fixed_of_mem _ _ _ ?_
  intro x hx
  rcases List.mem_map.mp hx with ⟨k, hk, rfl⟩
  rcases List.mem_range'_1.mp hk with ⟨hk1, hk2⟩
  simp [sweepStep, h1 k (by omega) (by omega)]

/-- Two-entry scan where the second entry beats the first: the final
minimiser is the second entry's charge. -/
theorem innerScan_pair_second (a b : DefectEntry) (t : String) (x : ℚ)
    (c0 : Option ℤ) (ha : a.name = t) (hb : b.name = t)
    (hasmall : a.formation_energy x < 10000)
    (hba : b.formation_energy x < a.formation_energy x) :
    (innerScan [a, b] t x c0).cur = some b.charge := by
  simp [innerScan, innerScanStep, ha, hb, hasmall, hba]

/-- Two-entry scan where the second entry does not beat the first: the
final minimiser is the first entry's charge. -/
theorem innerScan_pair_first (a b : DefectEntry) (t : String) (x : ℚ)
    (c0 : Option ℤ) (ha : a.name = t) (hb : b.name = t)
    (hasmall : a.formation_energy x < 10000)
    (hnba : ¬ b.formation_energy x < a.formation_energy x) :
    (innerScan [a, b] t x c0).cur = some a.charge := by
  simp [innerScan, innerScanStep, ha, hb, hasmall, hnba]

/-- The two same-name entries of the C1 counterexample: charge 1 with
line `E(f) = f`, and charge 0 with constant line `E = -0.099995`.  The
charge-1 line is strictly lowest on `(-0.1, -0.099995)`, a sub-interval
of the window contained strictly between the first two grid points. -/
def C1entryA : DefectEntry := ⟨"vac", 1, 0⟩

def C1entryB : DefectEntry := ⟨"vac", 0, -(19999/200000)⟩

def C1entries : List DefectEntry := [C1entryA, C1entryB]

/-- Claim-side definition, following the spec's words: charge `q`'s
formation-energy line lies on the lower convex hull (lower envelope) of
formation energy versus Fermi level for defect `t` over the window
`(-0.1, band_gap + 0.1)` — some entry of name `t` and charge `q`
attains the pointwise minimum among the name-`t` lines at some Fermi
level strictly inside the window. -/
def onLowerEnvelope (ds : List DefectEntry) (t : String) (gap : ℚ)
    (q : ℤ) : Prop :=
  ∃ d ∈ ds, d.name = t ∧ d.charge = q ∧ ∃ ef : ℚ,
    -(1/10) < ef ∧ ef < gap + 1/10 ∧
    ∀ d2 ∈ ds, d2.name = t →
      d.formation_energy ef ≤ d2.formation_energy ef

theorem C1_scan_zero (c0 : Option ℤ) :
    (innerScan C1entries "vac" (gridX (4/5) 0) c0).cur = some 1 := by
  have hx : gridX (4/5) 0 = -(1/10) := by norm_num [gridX, gridStep]
  have h := innerScan_pair_first C1entryA C1entryB "vac" (gridX (4/5) 0)
    c0 rfl rfl
    (by rw [hx]; norm_num [C1entryA, DefectEntry.formation_energy])
    (by rw [hx]; norm_num [C1entryA, C1entryB, DefectEntry.formation_energy])
  simpa [C1entries, C1entryA] using h

theorem C1_scan_pos (k : ℕ) (hk1 : 1 ≤ k) (hk2 : k < 10000)
    (c0 : Option ℤ) :
    (innerScan C1entries "vac" (gridX (4/5) k) c0).cur = some 0 := by
  have hstep : gridStep (4/5) = 1/10000 := by norm_num [gridStep]
  have hx : gridX (4/5) k = -(1/10) + k * (1/10000) := by
    rw [gridX, hstep]
  have hk1Q : (1:ℚ) ≤ (k:ℚ) := by exact_mod_cast hk1
  have hk2Q : (k:ℚ) < 10000 := by exact_mod_cast hk2
  have hA : C1entryA.formation_energy (gridX (4/5) k) =
      -(1/10) + k * (1/10000) := by
    rw [hx]
    simp [C1entryA, DefectEntry.formation_energy]
  have h := innerScan_pair_second C1entryA C1entryB "vac" (gridX (4/5) k)
    c0 rfl rfl
    (by rw [hA]; linarith)
    (by
      rw [hA]
      simp only [C1entryB, DefectEntry.formation_energy]
      push_cast
      linarith)
  simpa [C1entries, C1entryB] using h

/-- C1 is false as stated: for the two-entry diagram `C1entries` with
`band_gap = 0.8`, charge 1 lies on the lower convex hull of formation
energy versus Fermi level over the window `(-0.1, 0.9)` (it is strictly
lowest on `(-0.1, -0.099995)`), yet the reported stable charges for the
defect are `[0]` alone: the 10000-point sweep starts recording
minimisers only from the second grid point `-0.0999` on, and charge 1
is the minimiser only before that. -/
theorem C1_counterexample :
    onLowerEnvelope C1entries "vac" (4/5) 1 ∧
      dictLookup "vac"
          (set_dpd_nochempots C1entries 0 (4/5)).stable_charges =
        some [some 0] ∧
      some (1:ℤ) ∉ [some (0:ℤ)] := by
  refine ⟨?_, ?_, by decide⟩
  · refine ⟨C1entryA, by simp [C1entries], rfl, rfl,
      -(39999/400000), by norm_num, by norm_num, ?_⟩
    intro d2 hd2 _
    rcases List.mem_cons.mp hd2 with rfl | hd2
    · exact le_rfl
    · rcases List.mem_cons.mp hd2 with rfl | hd2
      · norm_num [C1entryA, C1entryB, DefectEntry.formation_energy]
      · exact absurd hd2 (List.not_mem_nil d2)
  · have hsweep := sweepType_two_phase C1entries "vac" (4/5) 1 0
      (by decide) C1_scan_zero C1_scan_pos
    have htypes : getAllDefectTypes C1entries = ["vac"] := by decide
    unfold set_dpd_nochempots
    rw [htypes]
    simp only [List.foldl_cons, List.foldl_nil, hsweep]
    decide

/-! ### Soundness of the sweep (amended claim C1)

Every charge the sweep reports is the scan's minimiser at some grid
point with index at least 1, and such a minimiser lies on the lower
envelope inside the window. -/

theorem innerScan_foldl_spec (t : String) (x : ℚ) :
    ∀ (ds : List DefectEntry) (s : ScanSt),
      (ds.foldl (innerScanStep t x) s).miny ≤ s.miny ∧
      (∀ d ∈ ds, d.name = t →
        (ds.foldl (innerScanStep t x) s).miny ≤ d.formation_energy x) ∧
      (ds.foldl (innerScanStep t x) s = s ∨
        ∃ d ∈ ds, d.name = t ∧
          (ds.foldl (innerScanStep t x) s).cur = some d.charge ∧
          (ds.foldl (innerScanStep t x) s).miny = d.formation_energy x) := by
  intro ds
  induction ds with
  | nil => intro s; exact ⟨le_rfl, by simp, Or.inl rfl⟩
  | cons d rest ih =>
    intro s
    rw [List.foldl_cons]
    rcases ih (innerScanStep t x s d) with ⟨h1, h2, h3⟩
    have hstep_le : (innerScanStep t x s d).miny ≤ s.miny := by
      unfold innerScanStep
      by_cases hn : d.name = t
      · rw [if_pos hn]
        by_cases hlt : d.formation_energy x < s.miny
        · rw [if_pos hlt]; exact le_of_lt hlt
        · rw [if_neg hlt]
      · rw [if_neg hn]
    refine ⟨le_trans h1 hstep_le, ?_, ?_⟩
    · intro d2 hd2 hd2n
      rcases List.mem_cons.mp hd2 with rfl | hd2
      · by_cases hlt : d2.formation_energy x < s.miny
        · have hmy : (innerScanStep t x s d2).miny =
              d2.formation_energy x := by
            unfold innerScanStep; rw [if_pos hd2n, if_pos hlt]
          exact hmy ▸ h1
        · have hst : innerScanStep t x s d2 = s := by
            unfold innerScanStep; rw [if_pos hd2n, if_neg hlt]
          rw [hst] at h1 ⊢
          exact le_trans h1 (not_lt.mp hlt)
      · exact h2 d2 hd2 hd2n
    · rcases h3 with heq | hex
      · rw [heq]
        by_cases hn : d.name = t
        · by_cases hlt : d.formation_energy x < s.miny
          · refine Or.inr ⟨d, List.mem_cons_self d rest, hn, ?_, ?_⟩
            · unfold innerScanStep; rw [if_pos hn, if_pos hlt]
            · unfold innerScanStep; rw [if_pos hn, if_pos hlt]
          · refine Or.inl ?_
            unfold innerScanStep; rw [if_pos hn, if_neg hlt]
        · refine Or.inl ?_
          unfold innerScanStep; rw [if_neg hn]
      · rcases hex with ⟨d2, hd2, hn2, hc2, hm2⟩
        exact Or.inr ⟨d2, List.mem_cons_of_mem d hd2, hn2, hc2, hm2⟩

/-- When some entry of the scanned name has formation energy below the
`10000` sentinel at `x`, the scan yields the charge of a pointwise
minimiser, regardless of the carried-over `cur_min_q`. -/
theorem innerScan_argmin (ds : List DefectEntry) (t : String) (x : ℚ)
    (c0 : Option ℤ)
    (hex : ∃ d ∈ ds, d.name = t ∧ d.formation_energy x < 10000) :
    ∃ dm ∈ ds, dm.name = t ∧
      (innerScan ds t x c0).cur = some dm.charge ∧
      ∀ d2 ∈ ds, d2.name = t →
        dm.formation_energy x ≤ d2.formation_energy x := by
  rcases innerScan_foldl_spec t x ds ⟨10000, c0⟩ with ⟨_, h2, h3⟩
  rcases hex with ⟨dw, hdw, hdwn, hdwsmall⟩
  rcases h3 with heq | ⟨dm, hdm, hdmn, hcur, hminy⟩
  · exfalso
    have hle := h2 dw hdw hdwn
    rw [heq] at hle
    exact absurd (lt_of_le_of_lt hle hdwsmall) (lt_irrefl _)
  · refine ⟨dm, hdm, hdmn, hcur, ?_⟩
    intro d2 hd2 hn2
    have := h2 d2 hd2 hn2
    rw [hminy] at this
    exact this

/-- A charge is the scan minimiser at grid point `k` for type `t`. -/
def scanArgminAt (ds : List DefectEntry) (t : String) (gap : ℚ)
    (q : ℤ) (k : ℕ) : Prop :=
  ∃ d ∈ ds, d.name = t ∧ d.charge = q ∧
    ∀ d2 ∈ ds, d2.name = t →
      d.formation_energy (gridX gap k) ≤ d2.formation_energy (gridX gap k)

/-- Invariant of the sweep fold over the grid points with index ≥ 1:
every recorded stable charge is the scan minimiser at some such grid
point. -/
theorem sweep_chg_sound (ds : List DefectEntry) (t : String) (gap : ℚ)
    (hex : ∀ k : ℕ, k < 10000 → ∃ d ∈ ds, d.name = t ∧
      d.formation_energy (gridX gap k) < 10000) :
    ∀ xs : List ℚ,
      (∀ x ∈ xs, ∃ k : ℕ, 1 ≤ k ∧ k < 10000 ∧ x = gridX gap k) →
      ∀ s : SweepSt,
        (∀ oq ∈ s.chg, ∃ q : ℤ, oq = some q ∧
          ∃ k : ℕ, 1 ≤ k ∧ k < 10000 ∧ scanArgminAt ds t gap q k) →
        ∀ oq ∈ (xs.foldl (sweepStep ds t) s).chg,
          ∃ q : ℤ, oq = some q ∧
            ∃ k : ℕ, 1 ≤ k ∧ k < 10000 ∧ scanArgminAt ds t gap q k := by
  intro xs
  induction xs with
  | nil => intro _ s hs; simpa using hs
  | cons x rest ih =>
    intro hxs s hs
    rw [List.foldl_cons]
    refine ih (fun y hy => hxs y (List.mem_cons_of_mem x hy)) _ ?_
    intro oq hoq
    rcases hxs x (List.mem_cons_self x rest) with ⟨k, hk1, hk2, rfl⟩
    rcases innerScan_argmin ds t (gridX gap k) s.cur (hex k hk2) with
      ⟨dm, hdm, hdmn, hcur, hmin⟩
    unfold sweepStep at hoq
    rcases hp : s.prev with _ | pq
    · rw [hp] at hoq
      simp only at hoq
      exact hs oq hoq
    · rw [hp] at hoq
      simp only at hoq
      by_cases hmem : (innerScan ds t (gridX gap k) s.cur).cur ∉ s.chg
      · rw [if_pos hmem] at hoq
        rcases List.mem_append.mp hoq with hoq | hoq
        · exact hs oq hoq
        · have : oq = (innerScan ds t (gridX gap k) s.cur).cur := by
            simpa using hoq
          rw [this, hcur]
          exact ⟨dm.charge, rfl, k, hk1, hk2, dm, hdm, hdmn, rfl, hmin⟩
      · rw [if_neg hmem] at hoq
        exact hs oq hoq

theorem getAllDefectTypes_single (ds : List DefectEntry) (t : String)
    (hne : ds ≠ []) (hname : ∀ d ∈ ds, d.name = t) :
    getAllDefectTypes ds = [t] := by
  cases ds with
  | nil => exact absurd rfl hne
  | cons d rest =>
    unfold getAllDefectTypes
    rw [List.foldl_cons]
    have h1 : (if d.name ∈ ([] : List String) then ([] : List String)
        else [] ++ [d.name]) = [t] := by
      simp [hname d (List.mem_cons_self d rest)]
    rw [h1]
    refine foldl_fixed_of_mem _ _ _ ?_
    intro a ha
    simp [hname a (List.mem_cons_of_mem d ha)]

/-- C1 amended: for a diagram whose entries all carry one defect name
`t`, whose band gap is positive and whose formation-energy lines stay
below the `10000` sentinel on the sweep grid, every charge reported
under `t` in `stable_charges` lies on the lower convex hull of
formation energy versus Fermi level over the window
`(-0.1, band_gap + 0.1)`.  (The converse fails — `C1_counterexample` —
because the sweep only samples 10000 grid points and never records the
first grid point's minimiser.) -/
theorem dictLookup_single_getD {α : Type} (t : String) (v : α) (d : α) :
    (dictLookup t [(t, v)]).getD d = v := by
  unfold dictLookup
  rw [if_pos rfl]
  rfl

theorem C1_amended_stable_charges_on_hull (ds : List DefectEntry)
    (t : String) (vbm gap : ℚ) (hne : ds ≠ []) (hgap : 0 < gap)
    (hname : ∀ d ∈ ds, d.name = t)
    (hsmall : ∀ d ∈ ds, ∀ k : ℕ, k < 10000 →
      d.formation_energy (gridX gap k) < 10000) :
    ∀ oq ∈ (dictLookup t
        (set_dpd_nochempots ds vbm gap).stable_charges).getD [],
      ∃ q : ℤ, oq = some q ∧ onLowerEnvelope ds t gap q := by
  have hlast : ds.getLast? = some (ds.getLast hne) :=
    List.getLast?_eq_getLast ds hne
  have hlastname : (ds.getLast hne).name = t :=
    hname _ (List.getLast_mem hne)
  have hstable : (set_dpd_nochempots ds vbm gap).stable_charges =
      [(t, (sweepType ds t gap).chg)] := by
    unfold set_dpd_nochempots
    rw [getAllDefectTypes_single ds t hne hname]
    simp only [List.foldl_cons, List.foldl_nil, hlast, hlastname]
    rfl
  rw [hstable]
  rw [dictLookup_single_getD t ((sweepType ds t gap).chg) []]
  -- every reported charge is a grid minimiser at some index >= 1
  have hex : ∀ k : ℕ, k < 10000 → ∃ d ∈ ds, d.name = t ∧
      d.formation_energy (gridX gap k) < 10000 := by
    intro k hk
    cases ds with
    | nil => exact absurd rfl hne
    | cons d rest =>
      exact ⟨d, List.mem_cons_self d rest,
        hname d (List.mem_cons_self d rest),
        hsmall d (List.mem_cons_self d rest) k hk⟩
  have hsound : ∀ oq ∈ (sweepType ds t gap).chg, ∃ q : ℤ, oq = some q ∧
      ∃ k : ℕ, 1 ≤ k ∧ k < 10000 ∧ scanArgminAt ds t gap q k := by
    intro oq hoq
    unfold sweepType at hoq
    rw [gridList_decomp_one, List.foldl_cons] at hoq
    refine sweep_chg_sound ds t gap hex
      ((List.range' 1 9999).map (gridX gap)) ?_
      (sweepStep ds t ⟨[], [], none, none⟩ (gridX gap 0)) ?_ oq hoq
    · intro x hx
      rcases List.mem_map.mp hx with ⟨k, hk, rfl⟩
      rcases List.mem_range'_1.mp hk with ⟨hk1, hk2⟩
      exact ⟨k, hk1, by omega, rfl⟩
    · intro oq' hoq'
      exfalso
      unfold sweepStep at hoq'
      simp only at hoq'
      exact absurd hoq' (List.not_mem_nil oq')
  -- a grid minimiser at index 1 <= k < 10000 is on the lower envelope
  intro oq hoq
  rcases hsound oq hoq with ⟨q, rfl, k, hk1, hk2, d, hd, hdn, hdq, hmin⟩
  refine ⟨q, rfl, d, hd, hdn, hdq, gridX gap k, ?_, ?_, hmin⟩
  · have hstep : 0 < gridStep gap := by
      unfold gridStep
      positivity
    have hk1Q : (1:ℚ) ≤ (k:ℚ) := by exact_mod_cast hk1
    unfold gridX
    nlinarith
  · have hstep : 0 < gridStep gap := by
      unfold gridStep
      positivity
    have hk2Q : (k:ℚ) < 10000 := by exact_mod_cast hk2
    have hsum : gap + 1/10 = -(1/10) + 10000 * gridStep gap := by
      unfold gridStep
      ring
    unfold gridX
    rw [hsum]
    have := mul_lt_mul_of_pos_right hk2Q hstep
    linarith

/-- Witness for the amended C1 at a concrete input: a single charge-0
entry with the zero line. -/
theorem C1_amended_stable_charges_on_hull_witness :
    ([(⟨"v", 0, 0⟩ : DefectEntry)] ≠ []) ∧ (0:ℚ) < 1 ∧
      (∀ oq ∈ (dictLookup "v"
          (set_dpd_nochempots [⟨"v", 0, 0⟩] 0 1).stable_charges).getD [],
        ∃ q : ℤ, oq = some q ∧ onLowerEnvelope [⟨"v", 0, 0⟩] "v" 1 q) :=
  ⟨by simp, by norm_num,
    C1_amended_stable_charges_on_hull [⟨"v", 0, 0⟩] "v" 0 1
      (by simp) (by norm_num)
      (by
        intro d hd
        simp only [List.mem_singleton] at hd
        subst hd
        rfl)
      (by
        intro d hd k _
        simp only [List.mem_singleton] at hd
        subst hd
        norm_num [DefectEntry.formation_energy])⟩

/-! ## `pymatgen/phonon/ir_spectra.py`

`IRDielectricTensorGenerator.get_ir_spectra(broad, emin, emax, divs)`
normalises a float `broad` to a per-frequency list, checks a list
`broad` against `nphfreqs`, computes `emax` from `max_phfreq` and
`max(broad)` when not given (Python's `max` raises `ValueError` on an
empty sequence), samples `divs` frequencies with `np.linspace`, and sums
the oscillator terms into a complex 3×3 tensor per frequency. -/

/-- A complex value over exact rationals (numpy complex arithmetic is
embedded exactly; a zero denominator follows Lean's `x/0 = 0`, which is
irrelevant to the raise behaviour under scrutiny). -/
structure CQ where
  re : ℚ
  im : ℚ
deriving DecidableEq

def CQ.add (a b : CQ) : CQ := ⟨a.re + b.re, a.im + b.im⟩

/-- `a / (c - i*g)` for real `a`, `c`, `g`. -/
def CQ.divReal (a c g : ℚ) : CQ :=
  ⟨a * c / (c ^ 2 + g ^ 2), a * g / (c ^ 2 + g ^ 2)⟩

/-- Python's builtin `max` over a list: `ValueError` on an empty
sequence (this is what `max_phfreq` and `max(broad)` call). -/
def pymax (l : List ℚ) : Except String ℚ :=
  match l with
  | [] => Except.error "ValueError: max() arg is an empty sequence"
  | x :: xs => Except.ok (xs.foldl max x)

/-- `np.linspace(a, b, n)`: `n` evenly spaced samples, endpoint
included. -/
def npLinspace (a b : ℚ) (n : ℕ) : List ℚ :=
  if n = 0 then []
  else if n = 1 then [a]
  else (List.range n).map (fun k => a + k * ((b - a) / ((n : ℚ) - 1)))

/-- The generator's stored data: `oscillator_strength` (the constructor
keeps only the real part), `phfreqs_gamma` and `epsinf`. -/
structure IRDielectricTensorGenerator where
  oscillator_strength : ℕ → Fin 3 → Fin 3 → ℚ
  phfreqs_gamma : List ℚ
  epsinf : Fin 3 → Fin 3 → ℚ

/-- `nphfreqs` property: `len(self.phfreqs_gamma)`. -/
def IRDielectricTensorGenerator.nphfreqs
    (gen : IRDielectricTensorGenerator) : ℕ :=
  gen.phfreqs_gamma.length

/-- The `broad` argument: a single float broadening or a list of
per-frequency broadenings (the two shapes the source's `isinstance`
tests handle). -/
inductive Broad where
  | flt : ℚ → Broad
  | lst : List ℚ → Broad
deriving DecidableEq

/-- The pure tail of `get_ir_spectra` after all raise points: the
`np.linspace` grid and the summed dielectric tensor
`epsinf + Σ_{i≥3} osc[i] / (phfreqs[i]² - w² - i·broad[i]·phfreqs[i])`
(no further exception can arise from this numpy arithmetic). -/
def irCompute (gen : IRDielectricTensorGenerator) (broadL : List ℚ)
    (emin emaxv : ℚ) (divs : ℕ) :
    List ℚ × List (Fin 3 → Fin 3 → CQ) :=
  let w := npLinspace emin emaxv divs
  let t := w.map (fun wv => fun a b =>
    CQ.add
      ((List.range gen.nphfreqs).foldl (fun acc i =>
        if 3 ≤ i then
          CQ.add acc
            (CQ.divReal (gen.oscillator_strength i a b)
              ((gen.phfreqs_gamma.getD i 0) ^ 2 - wv ^ 2)
              ((broadL.getD i 0) * (gen.phfreqs_gamma.getD i 0)))
        else acc) ⟨0, 0⟩)
      ⟨gen.epsinf a b, 0⟩)
  (w, t)

/-- `get_ir_spectra`, with its raise points made explicit: a float
`broad` is first expanded to a list of length `nphfreqs`; then the
length check may raise; then, when `emax` is `None`,
`self.max_phfreq + max(broad)*20` evaluates `max` on `phfreqs_gamma`
and on the broadening list, each of which raises `ValueError` on an
empty sequence. -/
def get_ir_spectra (gen : IRDielectricTensorGenerator) (broad : Broad)
    (emin : ℚ) (emax : Option ℚ) (divs : ℕ) :
    Except String (List ℚ × List (Fin 3 → Fin 3 → CQ)) :=
  let broadL : List ℚ :=
    match broad with
    | Broad.flt b => List.replicate gen.nphfreqs b
    | Broad.lst bs => bs
  if broadL.length ≠ gen.nphfreqs then
    Except.error "ValueError: The number of elements in the broad_list is not the same as the number of frequencies"
  else
    match emax with
    | some e => Except.ok (irCompute gen broadL emin e divs)
    | none =>
      match pymax gen.phfreqs_gamma with
      | Except.error msg => Except.error msg
      | Except.ok mph =>
        match pymax broadL with
        | Except.error msg => Except.error msg
        | Except.ok mb =>
          Except.ok (irCompute gen broadL emin (mph + mb * 20) divs)

/-- The generator of the C9 counterexample: no phonon frequencies at
all. -/
def C9gen : IRDielectricTensorGenerator :=
  ⟨fun _ _ _ => 0, [], fun _ _ => 0⟩

/-- C9 is false as stated: with an empty `phfreqs_gamma`, the default
float broadening `0.00005` and `emax=None`, `get_ir_spectra` raises
`ValueError` (from `max()` on the empty frequency list inside
`max_phfreq`) even though `broad` is not a list of the wrong length. -/
theorem C9_counterexample :
    get_ir_spectra C9gen (Broad.flt (1/20000)) 0 none 500 =
        Except.error "ValueError: max() arg is an empty sequence" ∧
      (∀ bs : List ℚ, Broad.flt (1/20000) ≠ Broad.lst bs) :=
  ⟨rfl, fun _ h => Broad.noConfusion h⟩

theorem pymax_of_ne_nil (l : List ℚ) (h : l ≠ []) :
    ∃ v, pymax l = Except.ok v := by
  cases l with
  | nil => exact absurd rfl h
  | cons x xs => exact ⟨xs.foldl max x, rfl⟩

/-- C9 amended: provided there is at least one phonon frequency,
`get_ir_spectra` raises `ValueError` if and only if `broad` is a list
whose length differs from `nphfreqs`; in particular a float broadening
never raises, because it is first expanded to a per-frequency list of
length `nphfreqs`. -/
theorem C9_amended_valueerror_iff (gen : IRDielectricTensorGenerator)
    (broad : Broad) (emin : ℚ) (emax : Option ℚ) (divs : ℕ)
    (hnph : gen.phfreqs_gamma ≠ []) :
    (∃ msg, get_ir_spectra gen broad emin emax divs =
        Except.error msg) ↔
      ∃ bs, broad = Broad.lst bs ∧ bs.length ≠ gen.nphfreqs := by
  rcases pymax_of_ne_nil gen.phfreqs_gamma hnph with ⟨mph, hmph⟩
  have hn0 : gen.nphfreqs ≠ 0 := by
    simpa [IRDielectricTensorGenerator.nphfreqs,
      List.length_eq_zero] using hnph
  cases broad with
  | flt b =>
    have hrepl : List.replicate gen.nphfreqs b ≠ [] := by
      intro h
      exact hn0 (by simpa using congrArg List.length h)
    rcases pymax_of_ne_nil _ hrepl with ⟨mb, hmb⟩
    constructor
    · intro ⟨msg, hmsg⟩
      exfalso
      unfold get_ir_spectra at hmsg
      rw [if_neg (by simp)] at hmsg
      cases emax with
      | some e => simp at hmsg
      | none =>
        rw [hmph] at hmsg
        simp only at hmsg
        rw [hmb] at hmsg
        simp at hmsg
    · intro ⟨bs, hbs, _⟩
      exact Broad.noConfusion hbs
  | lst bs =>
    by_cases hlb : bs.length = gen.nphfreqs
    · have hbne : bs ≠ [] := by
        intro h
        subst h
        exact hn0 hlb.symm
      rcases pymax_of_ne_nil bs hbne with ⟨mb, hmb⟩
      constructor
      · intro ⟨msg, hmsg⟩
        exfalso
        unfold get_ir_spectra at hmsg
        rw [if_neg (by simp [hlb])] at hmsg
        cases emax with
        | some e => simp at hmsg
        | none =>
          rw [hmph] at hmsg
          simp only at hmsg
          rw [hmb] at hmsg
          simp at hmsg
      · intro ⟨bs', hbs', hne'⟩
        obtain rfl : bs = bs' := by
          cases hbs'
          rfl
        exact absurd hlb hne'
    · constructor
      · intro _
        exact ⟨bs, rfl, hlb⟩
      · intro _
        refine ⟨"ValueError: The number of elements in the broad_list is not the same as the number of frequencies", ?_⟩
        unfold get_ir_spectra
        rw [if_pos (by simpa using hlb)]

/-- Witness for the amended C9 at a concrete input: one phonon
frequency and a float broadening, where neither side of the equivalence
holds. -/
theorem C9_amended_valueerror_iff_witness :
    ((⟨fun _ _ _ => 0, [1], fun _ _ => 0⟩ :
        IRDielectricTensorGenerator).phfreqs_gamma ≠ []) ∧
      ((∃ msg, get_ir_spectra ⟨fun _ _ _ => 0, [1], fun _ _ => 0⟩
          (Broad.flt (1/20000)) 0 none 500 = Except.error msg) ↔
        ∃ bs, Broad.flt (1/20000) = Broad.lst bs ∧
          bs.length ≠ (⟨fun _ _ _ => 0, [1], fun _ _ => 0⟩ :
            IRDielectricTensorGenerator).nphfreqs) :=
  ⟨by simp,
    C9_amended_valueerror_iff ⟨fun _ _ _ => 0, [1], fun _ _ => 0⟩
      (Broad.flt (1/20000)) 0 none 500 (by simp)⟩

/-! ## `pymatgen/analysis/fragmenter.py`

`Fragmenter.__init__` accumulates fragments into
`new_unique_frag_dict`, filtering out anything isomorphic to a fragment
already recorded in `prev_unique_frag_dict` under the same key.
Fragments are abstract (`F` with decidable equality); the key
`str(...alphabetical_formula) + " E" + str(len(...edges()))` and the
graph-isomorphism test are framework functions, abstracted as `key` and
`iso`. -/

/-- `if k not in d: d[k] = [v] else: d[k].append(v)`. -/
def dictAppend {α : Type} (k : String) (v : α) :
    List (String × List α) → List (String × List α)
  | [] => [(k, [v])]
  | (k', vs) :: rest =>
    if k' = k then (k, vs ++ [v]) :: rest
    else (k', vs) :: dictAppend k v rest

theorem mem_dictAppend_imp {α : Type} (k : String) (v : α)
    (d : List (String × List α)) (k' : String) (x : α)
    (hx : x ∈ (dictLookup k' (dictAppend k v d)).getD []) :
    x ∈ (dictLookup k' d).getD [] ∨ (k' = k ∧ x = v) := by
  induction d with
  | nil =>
    by_cases h : k = k'
    · subst h
      right
      refine ⟨rfl, ?_⟩
      simpa [dictAppend, dictLookup] using hx
    · exfalso
      simp [dictAppend, dictLookup, h] at hx
  | cons kv rest ih =>
    rcases kv with ⟨k0, vs0⟩
    by_cases h0 : k0 = k
    · subst h0
      rw [dictAppend] at hx
      rw [if_pos rfl] at hx
      by_cases h1 : k0 = k'
      · subst h1
        rw [dictLookup, if_pos rfl] at hx
        simp only [Option.getD_some] at hx
        rcases List.mem_append.mp hx with hx | hx
        · left
          rw [dictLookup, if_pos rfl]
          simpa using hx
        · right
          exact ⟨rfl, by simpa using hx⟩
      · rw [dictLookup, if_neg h1] at hx
        left
        rw [dictLookup, if_neg h1]
        exact hx
    · rw [dictAppend, if_neg h0] at hx
      by_cases h1 : k0 = k'
      · subst h1
        rw [dictLookup, if_pos rfl] at hx
        left
        rw [dictLookup, if_pos rfl]
        exact hx
      · rw [dictLookup, if_neg h1] at hx
        have := ih hx
        rcases this with h | h
        · left
          rw [dictLookup, if_neg h1]
          exact h
        · right
          exact h

theorem mem_dictInsert_imp {α : Type} (k : String) (vs : List α)
    (d : List (String × List α)) (k' : String) (x : α)
    (hx : x ∈ (dictLookup k' (dictInsert k vs d)).getD []) :
    (k' = k ∧ x ∈ vs) ∨ x ∈ (dictLookup k' d).getD [] := by
  induction d with
  | nil =>
    by_cases h : k = k'
    · subst h
      left
      refine ⟨rfl, ?_⟩
      simpa [dictInsert, dictLookup] using hx
    · exfalso
      simp [dictInsert, dictLookup, h] at hx
  | cons kv rest ih =>
    rcases kv with ⟨k0, vs0⟩
    by_cases h0 : k0 = k
    · subst h0
      rw [dictInsert, if_pos rfl] at hx
      by_cases h1 : k0 = k'
      · subst h1
        rw [dictLookup, if_pos rfl] at hx
        left
        exact ⟨rfl, by simpa using hx⟩
      · rw [dictLookup, if_neg h1] at hx
        right
        rw [dictLookup, if_neg h1]
        exact hx
    · rw [dictInsert, if_neg h0] at hx
      by_cases h1 : k0 = k'
      · subst h1
        rw [dictLookup, if_pos rfl] at hx
        right
        rw [dictLookup, if_pos rfl]
        exact hx
      · rw [dictLookup, if_neg h1] at hx
        have := ih hx
        rcases this with h | h
        · left
          exact h
        · right
          rw [dictLookup, if_neg h1]
          exact h

/-- One fragment of the `depth == 0` loop (`old_thermodynamics` lines
82–98 of `fragmenter.py`): compute the key, test against
`prev_unique_frag_dict[frag_key]` with `isomorphic`, and add the
fragment if no previous fragment is isomorphic. -/
def nonIterStep {F : Type} (iso : F → F → Bool) (key : F → String)
    (prev : List (String × List F))
    (newD : List (String × List F)) (fragment : F) :
    List (String × List F) :=
  if (match dictLookup (key fragment) prev with
      | none => true
      | some prevList => !(prevList.any (fun p => iso fragment p))) = true
  then dictAppend (key fragment) fragment newD
  else newD

/-- `new_unique_frag_dict` of the non-iterative (`depth == 0`)
scheme. -/
def newFragDictNonIter {F : Type} (iso : F → F → Bool)
    (key : F → String) (prev : List (String × List F))
    (frags : List F) : List (String × List F) :=
  frags.foldl (nonIterStep iso key prev) []

/-- The inner loop of the `depth >= 1` merge (lines 129–138): filter
one key's level fragments against the previous fragments under the same
key. -/
def iterInnerStep {F : Type} (iso : F → F → Bool) (k : String)
    (prevList : List F) (nd : List (String × List F)) (fragment : F) :
    List (String × List F) :=
  if (!(prevList.any (fun p => iso fragment p))) = true then
    dictAppend k fragment nd
  else nd

/-- `new_unique_frag_dict` of the iterative (`depth >= 1`) scheme
(lines 122–138): when `prev_unique_frag_dict` is empty the level dict
is deep-copied wholesale, otherwise each key of
`level_unique_frag_dict` is merged with an isomorphism filter against
`prev_unique_frag_dict` under the same key. -/
def newFragDictIter {F : Type} [DecidableEq F] (iso : F → F → Bool)
    (prev level : List (String × List F)) :
    List (String × List F) :=
  if prev = [] then level
  else
    level.foldl (fun newD kv =>
      match dictLookup kv.1 prev with
      | none => dictInsert kv.1 kv.2 newD
      | some prevList => kv.2.foldl (iterInnerStep iso kv.1 prevList) newD)
      []

theorem nonIter_sound_aux {F : Type} (iso : F → F → Bool)
    (key : F → String) (prev : List (String × List F)) :
    ∀ (frags : List F) (acc : List (String × List F)),
      (∀ (k : String) (f p : F), f ∈ (dictLookup k acc).getD [] →
        p ∈ (dictLookup k prev).getD [] → iso f p = false) →
      ∀ (k : String) (f p : F),
        f ∈ (dictLookup k (frags.foldl (nonIterStep iso key prev) acc)).getD [] →
        p ∈ (dictLookup k prev).getD [] → iso f p = false := by
  intro frags
  induction frags with
  | nil => intro acc hacc; simpa using hacc
  | cons fr rest ih =>
    intro acc hacc
    rw [List.foldl_cons]
    refine ih (nonIterStep iso key prev acc fr) ?_
    intro k f p hf hp
    unfold nonIterStep at hf
    rcases hprevk : dictLookup (key fr) prev with _ | prevList
    · rw [hprevk] at hf
      simp only [if_pos] at hf
      rcases mem_dictAppend_imp (key fr) fr acc k f hf with hf | ⟨rfl, rfl⟩
      · exact hacc k f p hf hp
      · rw [hprevk] at hp
        simp at hp
    · rw [hprevk] at hf
      simp only at hf
      by_cases hany : prevList.any (fun p => iso fr p) = true
      · rw [if_neg (by simp [hany])] at hf
        exact hacc k f p hf hp
      · rw [if_pos (by simp [hany])] at hf
        rcases mem_dictAppend_imp (key fr) fr acc k f hf with hf | ⟨rfl, rfl⟩
        · exact hacc k f p hf hp
        · rw [hprevk] at hp
          simp only [Option.getD_some] at hp
          rcases Bool.eq_false_or_eq_true (iso f p) with h | h
          · exact absurd (List.any_eq_true.mpr ⟨p, hp, h⟩) hany
          · exact h

theorem iter_sound_aux {F : Type} (iso : F → F → Bool)
    (prev : List (String × List F)) :
    ∀ (level : List (String × List F)) (acc : List (String × List F)),
      (∀ (k : String) (f p : F), f ∈ (dictLookup k acc).getD [] →
        p ∈ (dictLookup k prev).getD [] → iso f p = false) →
      ∀ (k : String) (f p : F),
        f ∈ (dictLookup k (level.foldl (fun newD kv =>
          match dictLookup kv.1 prev with
          | none => dictInsert kv.1 kv.2 newD
          | some prevList =>
            kv.2.foldl (iterInnerStep iso kv.1 prevList) newD) acc)).getD [] →
        p ∈ (dictLookup k prev).getD [] → iso f p = false := by
  intro level
  induction level with
  | nil => intro acc hacc; simpa using hacc
  | cons kv rest ih =>
    intro acc hacc
    rw [List.foldl_cons]
    refine ih _ ?_
    rcases hprevk : dictLookup kv.1 prev with _ | prevList
    · intro k f p hf hp
      simp only [hprevk] at hf
      rcases mem_dictInsert_imp kv.1 kv.2 acc k f hf with ⟨rfl, _⟩ | hf
      · rw [hprevk] at hp
        simp at hp
      · exact hacc k f p hf hp
    · simp only [hprevk]
      -- inner fold over this key's level fragments
      have hinner : ∀ (frs : List F) (nd : List (String × List F)),
          (∀ (k : String) (f p : F), f ∈ (dictLookup k nd).getD [] →
            p ∈ (dictLookup k prev).getD [] → iso f p = false) →
          ∀ (k : String) (f p : F),
            f ∈ (dictLookup k
              (frs.foldl (iterInnerStep iso kv.1 prevList) nd)).getD [] →
            p ∈ (dictLookup k prev).getD [] → iso f p = false := by
        intro frs
        induction frs with
        | nil => intro nd hnd; simpa using hnd
        | cons fr frest ihf =>
          intro nd hnd
          rw [List.foldl_cons]
          refine ihf _ ?_
          intro k f p hf hp
          unfold iterInnerStep at hf
          by_cases hany : prevList.any (fun p => iso fr p) = true
          · rw [if_neg (by simp [hany])] at hf
            exact hnd k f p hf hp
          · rw [if_pos (by simp [hany])] at hf
            rcases mem_dictAppend_imp kv.1 fr nd k f hf with hf | ⟨rfl, rfl⟩
            · exact hnd k f p hf hp
            · rw [hprevk] at hp
              simp only [Option.getD_some] at hp
              rcases Bool.eq_false_or_eq_true (iso f p) with h | h
              · exact absurd (List.any_eq_true.mpr ⟨p, hp, h⟩) hany
              · exact h
      exact hinner kv.2 acc hacc

/-- C10: with a non-empty `prev_unique_frag_dict`, in both the
`depth == 0` (non-iterative) and `depth >= 1` (iterative) schemes,
every fragment stored in `new_unique_frag_dict` under a key `k` is
non-isomorphic to every fragment stored in `prev_unique_frag_dict`
under the same key `k`. -/
theorem C10_new_fragments_not_in_prev {F : Type} [DecidableEq F]
    (iso : F → F → Bool) (key : F → String)
    (prev level : List (String × List F)) (frags : List F)
    (hprev : prev ≠ []) :
    (∀ (k : String) (f p : F),
        f ∈ (dictLookup k (newFragDictNonIter iso key prev frags)).getD [] →
        p ∈ (dictLookup k prev).getD [] → iso f p = false) ∧
      (∀ (k : String) (f p : F),
        f ∈ (dictLookup k (newFragDictIter iso prev level)).getD [] →
        p ∈ (dictLookup k prev).getD [] → iso f p = false) := by
  constructor
  · intro k f p hf hp
    exact nonIter_sound_aux iso key prev frags [] (by simp [dictLookup])
      k f p hf hp
  · intro k f p hf hp
    unfold newFragDictIter at hf
    rw [if_neg hprev] at hf
    exact iter_sound_aux iso prev level [] (by simp [dictLookup])
      k f p hf hp

/-- Witness for C10 at a concrete input: fragments are naturals, the
key is constant, isomorphism is equality; fragment 1 is previously
known, fragment 2 is new. -/
theorem C10_new_fragments_not_in_prev_witness :
    ([("k", [1])] : List (String × List ℕ)) ≠ [] ∧
      ((fun a b : ℕ => a == b) 2 1 = false ∧
        2 ∈ (dictLookup "k" (newFragDictNonIter (fun a b : ℕ => a == b)
          (fun _ => "k") [("k", [1])] [1, 2])).getD [] ∧
        2 ∈ (dictLookup "k" (newFragDictIter (fun a b : ℕ => a == b)
          [("k", [1])] [("k", [1, 2])])).getD []) := by
  have h2non : 2 ∈ (dictLookup "k" (newFragDictNonIter
      (fun a b : ℕ => a == b) (fun _ => "k") [("k", [1])] [1, 2])).getD [] := by
    decide
  have h2it : 2 ∈ (dictLookup "k" (newFragDictIter (fun a b : ℕ => a == b)
      [("k", [1])] [("k", [1, 2])])).getD [] := by
    decide
  refine ⟨by simp, ?_, h2non, h2it⟩
  exact (C10_new_fragments_not_in_prev (fun a b : ℕ => a == b)
    (fun _ => "k") [("k", [1])] [("k", [1, 2])] [1, 2]
    (by simp)).1 "k" 2 1 h2non (by decide)

/-! ## `EntrySet` (entry_tools.py) and the MSON convention (claim C7) -/

/-- The values appearing in an `EntrySet` dict representation: a list
of entries (under the `"entries"` key) or a string (which the
`@module`/`@class` fields of the MSON convention would hold). -/
inductive MVal (E : Type) where
  | entries : List E → MVal E
  | str : String → MVal E
deriving DecidableEq

/-- `EntrySet.__init__`: `self.entries = set(entries)`.  The Python set
is modelled as a duplicate-free list; only membership matters. -/
structure EntrySet (E : Type) where
  entries : List E
deriving DecidableEq

def mkEntrySet {E : Type} [DecidableEq E] (l : List E) : EntrySet E :=
  ⟨l.dedup⟩

/-- `EntrySet.as_dict` exactly as in the source:
`{"entries": list(self.entries)}` — with no `@module`/`@class`
fields. -/
def EntrySet.as_dict {E : Type} (s : EntrySet E) :
    List (String × MVal E) :=
  [("entries", MVal.entries s.entries)]

/-- Modelled from the spec: the MSON deserialisation machinery
(`MontyDecoder`) is keyed on the `@module` and `@class` fields of a
dict; it reconstructs an `EntrySet` only from a dict carrying those
fields with the class's module and name, and otherwise leaves the dict
as a plain dict (`none`). -/
def montyDecodeEntrySet {E : Type} [DecidableEq E]
    (d : List (String × MVal E)) : Option (EntrySet E) :=
  match dictLookup "@module" d, dictLookup "@class" d with
  | some (MVal.str m), some (MVal.str c) =>
    if m = "pymatgen.entries.entry_tools" ∧ c = "EntrySet" then
      match dictLookup "entries" d with
      | some (MVal.entries es) => some (mkEntrySet es)
      | _ => none
    else none
  | _, _ => none

/-- Modelled from the spec: the default `MSONable.from_dict`
classmethod strips `@`-prefixed keys and passes the rest to the
constructor, here `EntrySet(entries=...)`. -/
def entrySet_from_dict {E : Type} [DecidableEq E]
    (d : List (String × MVal E)) : Option (EntrySet E) :=
  match dictLookup "entries" d with
  | some (MVal.entries es) => some (mkEntrySet es)
  | _ => none

/-- C7 is false as stated: `EntrySet.as_dict` emits only the
`"entries"` key — no `@module` or `@class` field — so the MSON
machinery keyed on those fields cannot reconstruct any `EntrySet` from
it. -/
theorem C7_counterexample :
    dictLookup "@module"
        (EntrySet.as_dict (mkEntrySet ([1, 2] : List ℕ))) = none ∧
      dictLookup "@class"
        (EntrySet.as_dict (mkEntrySet ([1, 2] : List ℕ))) = none ∧
      montyDecodeEntrySet
        (EntrySet.as_dict (mkEntrySet ([1, 2] : List ℕ))) = none := by
  refine ⟨rfl, rfl, rfl⟩

/-- C7 amended: the dict produced by `EntrySet.as_dict` carries no
`@module`/`@class` fields, so `MontyDecoder` dispatch cannot apply; the
`from_dict` classmethod, however, reconstructs from it an `EntrySet`
containing exactly the same entries. -/
theorem C7_amended_from_dict_roundtrip {E : Type} [DecidableEq E]
    (l : List E) :
    entrySet_from_dict (EntrySet.as_dict (mkEntrySet l)) =
        some (mkEntrySet l) ∧
      ∀ x : E, x ∈ (mkEntrySet l).entries ↔ x ∈ l := by
  constructor
  · show entrySet_from_dict [("entries", MVal.entries l.dedup)] =
      some (mkEntrySet l)
    unfold entrySet_from_dict
    rw [dictLookup, if_pos rfl]
    show some (mkEntrySet l.dedup) = some (mkEntrySet l)
    unfold mkEntrySet
    rw [List.dedup_idem]
  · intro x
    exact List.mem_dedup

/-! ## Pourbaix decomposition energy (claim C6, spec-modelled)

`pymatgen/analysis/pourbaix_diagram.py` is not under `src/` (only its
test file is), so the decomposition-energy query is modelled from the
spec: convex-hull-based stability over (pH, V) with decomposition
energy measured against the hull. -/

/-- Modelled from the spec: a Pourbaix entry's normalised energy at
conditions is affine in pH and the applied potential V (a plane over
the (pH, V) space). -/
structure PourbaixEntry where
  e0 : ℚ
  cpH : ℚ
  cPhi : ℚ
deriving DecidableEq

def PourbaixEntry.energyAt (e : PourbaixEntry) (pH V : ℚ) : ℚ :=
  e.e0 + e.cpH * pH + e.cPhi * V

structure PourbaixDiagram where
  entries : List PourbaixEntry
deriving DecidableEq

/-- Modelled from the spec: the hull energy at `(pH, V)` is the lower
envelope (pointwise minimum) of the diagram's entry energies — the
convex-hull-based thermodynamic stability determination. -/
def PourbaixDiagram.hullEnergy (pd : PourbaixDiagram) (pH V : ℚ) : ℚ :=
  match pd.entries with
  | [] => 0
  | e :: es =>
    es.foldl (fun m e2 => min m (e2.energyAt pH V)) (e.energyAt pH V)

/-- Modelled from the spec: `get_decomposition_energy(entry, pH, V)` is
the entry's energy above the hull at that point. -/
def PourbaixDiagram.get_decomposition_energy (pd : PourbaixDiagram)
    (e : PourbaixEntry) (pH V : ℚ) : ℚ :=
  e.energyAt pH V - pd.hullEnergy pH V

/-- An entry is stable at `(pH, V)` when it attains the minimum there:
the point lies in the entry's stability domain. -/
def PourbaixDiagram.stableAt (pd : PourbaixDiagram) (e : PourbaixEntry)
    (pH V : ℚ) : Prop :=
  ∀ e2 ∈ pd.entries, e.energyAt pH V ≤ e2.energyAt pH V

theorem foldl_min_spec {α : Type} (f : α → ℚ) :
    ∀ (es : List α) (a : ℚ),
      (es.foldl (fun m x => min m (f x)) a ≤ a) ∧
      (∀ x ∈ es, es.foldl (fun m x => min m (f x)) a ≤ f x) ∧
      (es.foldl (fun m x => min m (f x)) a = a ∨
        ∃ x ∈ es, es.foldl (fun m x => min m (f x)) a = f x) := by
  intro es
  induction es with
  | nil => intro a; exact ⟨le_rfl, by simp, Or.inl rfl⟩
  | cons x xs ih =>
    intro a
    rw [List.foldl_cons]
    rcases ih (min a (f x)) with ⟨h1, h2, h3⟩
    refine ⟨le_trans h1 (min_le_left _ _), ?_, ?_⟩
    · intro y hy
      rcases List.mem_cons.mp hy with rfl | hy
      · exact le_trans h1 (min_le_right _ _)
      · exact h2 y hy
    · rcases h3 with heq | ⟨y, hy, heq⟩
      · rcases min_choice a (f x) with hmin | hmin
        · exact Or.inl (heq.trans hmin)
        · exact Or.inr ⟨x, List.mem_cons_self x xs, heq.trans hmin⟩
      · exact Or.inr ⟨y, List.mem_cons_of_mem x hy, heq⟩

/-- C6: decomposition-energy queries are consistent with stability —
for every diagram, every entry of it and every `(pH, V)` point, the
decomposition energy is nonnegative, and it is zero exactly when the
entry is stable at that point. -/
theorem C6_decomposition_energy_nonneg_iff_stable
    (pd : PourbaixDiagram) (e : PourbaixEntry) (pH V : ℚ)
    (he : e ∈ pd.entries) :
    0 ≤ pd.get_decomposition_energy e pH V ∧
      (pd.get_decomposition_energy e pH V = 0 ↔ pd.stableAt e pH V) := by
  rcases hent : pd.entries with _ | ⟨e0, es⟩
  · rw [hent] at he
    exact absurd he (List.not_mem_nil e)
  · have hhull : pd.hullEnergy pH V =
        es.foldl (fun m e2 => min m (e2.energyAt pH V))
          (e0.energyAt pH V) := by
      unfold PourbaixDiagram.hullEnergy
      rw [hent]
    rcases foldl_min_spec (fun e2 => e2.energyAt pH V) es
      (e0.energyAt pH V) with ⟨h1, h2, h3⟩
    have hle : ∀ e2 ∈ pd.entries, pd.hullEnergy pH V ≤ e2.energyAt pH V := by
      intro e2 he2
      rw [hent] at he2
      rcases List.mem_cons.mp he2 with rfl | he2
      · rw [hhull]; exact h1
      · rw [hhull]; exact h2 e2 he2
    have hattain : ∃ em ∈ pd.entries,
        pd.hullEnergy pH V = em.energyAt pH V := by
      rcases h3 with heq | ⟨y, hy, heq⟩
      · exact ⟨e0, by rw [hent]; exact List.mem_cons_self e0 es,
          by rw [hhull]; exact heq⟩
      · exact ⟨y, by rw [hent]; exact List.mem_cons_of_mem e0 hy,
          by rw [hhull]; exact heq⟩
    have hhe := hle e he
    constructor
    · unfold PourbaixDiagram.get_decomposition_energy
      linarith
    · constructor
      · intro hzero e2 he2
        unfold PourbaixDiagram.get_decomposition_energy at hzero
        have : e.energyAt pH V = pd.hullEnergy pH V := by linarith
        rw [this]
        exact hle e2 he2
      · intro hstable
        unfold PourbaixDiagram.get_decomposition_energy
        rcases hattain with ⟨em, hem, hemeq⟩
        have h4 := hstable em hem
        rw [← hemeq] at h4
        linarith

/-- Witness for C6 at a concrete input: two constant-energy entries at
`(pH, V) = (7, 0)`; the first is stable with decomposition energy 0. -/
theorem C6_decomposition_energy_witness :
    ((⟨0, 0, 0⟩ : PourbaixEntry) ∈
        (⟨[⟨0, 0, 0⟩, ⟨1, 0, 0⟩]⟩ : PourbaixDiagram).entries) ∧
      (0 ≤ (⟨[⟨0, 0, 0⟩, ⟨1, 0, 0⟩]⟩ :
          PourbaixDiagram).get_decomposition_energy ⟨0, 0, 0⟩ 7 0 ∧
        ((⟨[⟨0, 0, 0⟩, ⟨1, 0, 0⟩]⟩ :
            PourbaixDiagram).get_decomposition_energy ⟨0, 0, 0⟩ 7 0 = 0 ↔
          (⟨[⟨0, 0, 0⟩, ⟨1, 0, 0⟩]⟩ :
            PourbaixDiagram).stableAt ⟨0, 0, 0⟩ 7 0)) :=
  ⟨by simp,
    C6_decomposition_energy_nonneg_iff_stable
      ⟨[⟨0, 0, 0⟩, ⟨1, 0, 0⟩]⟩ ⟨0, 0, 0⟩ 7 0 (by simp)⟩

end Spec2Proof
